import Mathlib

/-!
# Tractor simulation: the game engine and the simulation driver

A shallow embedding of `playGame`, `determineProgressStep` and `simulateGames`
of `拖拉机模拟.go`.

Go slices are views `(array, offset, length, capacity)` onto a backing array.
`playGame` cuts both hands out of ONE backing array, the 52-element array
returned by `rng.Perm(52)`: `aDeck = deck[:26]` has capacity 52 and
`bDeck = deck[26:]` has capacity 26.  `append` writes in place whenever the
capacity allows it, so the embedding keeps that array explicit.  Every other
backing array (the one of `table`, and the ones `append` allocates when the
capacity is exceeded) is referenced by a single slice variable, so a slice onto
such an array is modelled by the list of its elements.

Go's `int` is 64 bits wide here (the source compares with `10000000000`); the
counters are natural numbers, and bounds are stated where the width matters.
-/

namespace Tractor

/-! ## Data model -/

/-- GameResult stores the result of a single game. -/
structure GameResult where
  Winner : String
  AMoves : Nat
  BMoves : Nat
deriving DecidableEq, Repr

/-- A hand (`aDeck`, `bDeck`) as a Go slice: either the window `deck[lo:hi]` of
the shared backing array, with capacity `len(deck) - lo`, or a slice onto a
private backing array allocated by a reallocating `append`. -/
inductive Hand where
  | view (lo hi : Nat)
  | own (cards : List Nat)
deriving DecidableEq, Repr

/-- The local variables of `playGame` inside its loop, with the backing array
`deck` that the two hands were cut from. -/
structure State where
  deck : List Nat
  aDeck : Hand
  bDeck : Hand
  table : List Nat
  aTurn : Bool
  aMoves : Nat
  bMoves : Nat
deriving DecidableEq, Repr

/-- The elements a hand holds, read through the backing array. -/
def Hand.cards (deck : List Nat) : Hand → List Nat
  | .view lo hi => (deck.drop lo).take (hi - lo)
  | .own cards => cards

/-- The value of `len(h)`. -/
def Hand.len : Hand → Nat
  | .view lo hi => hi - lo
  | .own cards => cards.length

/-- The value of `h[0]`. -/
def Hand.front (deck : List Nat) (h : Hand) : Nat :=
  (h.cards deck).headD 0

/-- The slice `h[1:]`. -/
def Hand.rest : Hand → Hand
  | .view lo hi => .view (lo + 1) hi
  | .own cards => .own cards.tail

/-- Store `xs` into the array `arr` from position `pos` on. -/
def writeAt (arr : List Nat) (pos : Nat) (xs : List Nat) : List Nat :=
  arr.take pos ++ xs ++ arr.drop (pos + xs.length)

/-- The call `append(h, xs...)`: when the capacity suffices the elements are
stored in the shared backing array right after the window and the window is
extended; otherwise the elements of `h` and `xs` are copied to a fresh
array.  Returns the backing array and the new slice. -/
def appendHand (deck : List Nat) (h : Hand) (xs : List Nat) : List Nat × Hand :=
  match h with
  | .view lo hi =>
    if hi + xs.length ≤ deck.length then
      (writeAt deck hi xs, .view lo (hi + xs.length))
    else
      (deck, .own ((Hand.view lo hi).cards deck ++ xs))
  | .own cards => (deck, .own (cards ++ xs))

/-! ## The game engine -/

/-- The loop `for i := 0; i < len(table)-1; i++` of `playGame` up to its
`break`: `scanLoop table card n i` examines the `n` indices from `i` on and
returns the first one holding `card`. -/
def scanLoop (table : List Nat) (card : Nat) : Nat → Nat → Option Nat
  | 0, _ => none
  | n + 1, i => if table.getD i 0 = card then some i else scanLoop table card n (i + 1)

/-- The scan of `playGame`: the lowest index below `len(table)-1` holding `card`. -/
def scan (table : List Nat) (card : Nat) : Option Nat :=
  scanLoop table card (table.length - 1) 0

/-- The state at the head of the loop of `playGame`, for the shuffle `perm`
returned by `rng.Perm(52)`. -/
def init (perm : List Nat) : State :=
  { deck := perm.map (fun v => v % 13 + 1)
    aDeck := .view 0 26
    bDeck := .view 26 52
    table := []
    aTurn := true
    aMoves := 0
    bMoves := 0 }

/-- The first half of the loop body: the player to move plays the front card. -/
def play (s : State) : State × Nat :=
  if s.aTurn then
    ({ s with aDeck := s.aDeck.rest, aMoves := s.aMoves + 1 }, s.aDeck.front s.deck)
  else
    ({ s with bDeck := s.bDeck.rest, bMoves := s.bMoves + 1 }, s.bDeck.front s.deck)

/-- The capture at index `i`: `table[i:]` goes to the hand named by the turn
flag, and the pile is cut to `table[:i]`. -/
def capture (s : State) (i : Nat) : State :=
  if s.aTurn then
    let r := appendHand s.deck s.aDeck (s.table.drop i)
    { s with deck := r.1, aDeck := r.2, table := s.table.take i }
  else
    let r := appendHand s.deck s.bDeck (s.table.drop i)
    { s with deck := r.1, bDeck := r.2, table := s.table.take i }

/-- One iteration of the loop of `playGame`, with the scan as a parameter. -/
def stepWith (sc : List Nat → Nat → Option Nat) (s : State) : State :=
  let p := play s
  let s1 : State := { p.1 with table := p.1.table ++ [p.2], aTurn := !p.1.aTurn }
  match sc s1.table p.2 with
  | some i => capture s1 i
  | none => s1

/-- One iteration of the loop of `playGame`. -/
def step (s : State) : State := stepWith scan s

/-- The loop condition `len(aDeck) > 0 && len(bDeck) > 0`. -/
def running (s : State) : Bool :=
  decide (0 < s.aDeck.len) && decide (0 < s.bDeck.len)

/-- The state after `n` completed iterations, when the loop gets that far. -/
def itersWith (sc : List Nat → Nat → Option Nat) : Nat → State → Option State
  | 0, s => some s
  | n + 1, s => if running s then itersWith sc n (stepWith sc s) else none

/-- The state after `n` completed iterations of the loop of `playGame`. -/
def iters (n : Nat) (s : State) : Option State := itersWith scan n s

/-- The loop of `playGame`, cut off after `fuel` iterations: the state at the
exit of the loop, or `none` when the loop is still running. -/
def loopWith (sc : List Nat → Nat → Option Nat) : Nat → State → Option State
  | 0, s => if running s then none else some s
  | fuel + 1, s => if running s then loopWith sc fuel (stepWith sc s) else some s

/-- The statements after the loop of `playGame`. -/
def finish (s : State) : GameResult :=
  { Winner := if s.aDeck.len = 0 then "B" else "A"
    AMoves := s.aMoves
    BMoves := s.bMoves }

/-- The state at the exit of the loop of `playGame`. -/
def exitState (fuel : Nat) (perm : List Nat) : Option State :=
  loopWith scan fuel (init perm)

/-- The function `playGame` on the shuffle `perm`, cut off after `fuel` plays. -/
def playGame (fuel : Nat) (perm : List Nat) : Option GameResult :=
  (exitState fuel perm).map finish

/-! ## The same game with the other tie-break -/

/-- The scan that looks for the most recent match: `scanLastLoop table card n`
examines the indices below `n` from the highest down and returns the first one
holding `card`. -/
def scanLastLoop (table : List Nat) (card : Nat) : Nat → Option Nat
  | 0 => none
  | n + 1 => if table.getD n 0 = card then some n else scanLastLoop table card n

/-- The highest index below `len(table)-1` holding `card`. -/
def scanLast (table : List Nat) (card : Nat) : Option Nat :=
  scanLastLoop table card (table.length - 1)

/-- The game of `playGame` with the scan replaced by the one that captures at
the most recent (highest) matching index. -/
def playGameLast (fuel : Nat) (perm : List Nat) : Option GameResult :=
  (loopWith scanLast fuel (init perm)).map finish

/-! ## Shuffles, contents and invariants -/

/-- A result of `rng.Perm(52)`: a permutation of `0..51`. -/
def IsShuffle (perm : List Nat) : Prop := List.Perm perm (List.range 52)

instance (perm : List Nat) : Decidable (IsShuffle perm) :=
  inferInstanceAs (Decidable (List.Perm perm (List.range 52)))

/-- The identity shuffle `0, 1, ..., 51`. -/
def idShuffle : List Nat := List.range 52

/-- The combined contents of `aDeck`, `bDeck` and `table`. -/
def allCards (s : State) : List Nat :=
  s.aDeck.cards s.deck ++ s.bDeck.cards s.deck ++ s.table

/-- The slice invariant of Go: a window lies inside its backing array. -/
def handWF (deck : List Nat) : Hand → Prop
  | .view lo hi => lo ≤ hi ∧ hi ≤ deck.length
  | .own _ => True

/-- A card value is a rank `1..13`. -/
def IsRank (x : Nat) : Prop := 1 ≤ x ∧ x ≤ 13

/-- The elements of a private backing array are ranks. -/
def handRanks : Hand → Prop
  | .view _ _ => True
  | .own cards => ∀ x ∈ cards, IsRank x

/-- The facts that hold at the head of every iteration of the loop of
`playGame`: both slices are well formed, the three lengths add up to 52, the
turn flag follows the move counters, each hand has lost at most one card per
own move, an empty hand belongs to the player who just moved, and every
stored value is a rank. -/
structure Inv (s : State) : Prop where
  wfA : handWF s.deck s.aDeck
  wfB : handWF s.deck s.bDeck
  total : s.aDeck.len + s.bDeck.len + s.table.length = 52
  turnA : s.aTurn = true → s.aMoves = s.bMoves
  turnB : s.aTurn = false → s.aMoves = s.bMoves + 1
  lowA : 26 ≤ s.aDeck.len + s.aMoves
  lowB : 26 ≤ s.bDeck.len + s.bMoves
  emptyA : s.aDeck.len = 0 → s.aTurn = false
  emptyB : s.bDeck.len = 0 → s.aTurn = true
  ranksDeck : ∀ x ∈ s.deck, IsRank x
  ranksA : handRanks s.aDeck
  ranksB : handRanks s.bDeck
  ranksTable : ∀ x ∈ s.table, IsRank x

/-! ## The simulation driver -/

/-- The run-time faults `simulateGames` can raise. -/
inductive Fault where
  | makechanSize
  | divideByZero
deriving DecidableEq, Repr

/-- The function `determineProgressStep`; `/` of Go truncates toward zero. -/
def determineProgressStep (numGames : Int) : Int :=
  if numGames > 10000000000 then numGames.tdiv 100000
  else if numGames > 1000000000 then numGames.tdiv 10000
  else if numGames > 100000000 then numGames.tdiv 1000
  else numGames.tdiv 1000

/-- The body of one worker goroutine, `for j := 0; j < numGames/numWorkers; j++`:
the results it sends on `gameResults`, in order, where `trial j` is what its
`j`-th call of `playGame` returned. -/
def worker (numGames numWorkers : Int) (trial : Nat → GameResult) : List GameResult :=
  (List.range (numGames.tdiv numWorkers).toNat).map trial

/-- What the goroutines started by `for i := 0; i < numWorkers; i++` send, one
list per worker; `trials i j` is the result of the `j`-th trial of worker `i`. -/
def sent (numGames numWorkers : Int) (trials : Nat → Nat → GameResult) :
    List (List GameResult) :=
  (List.range numWorkers.toNat).map (fun i => worker numGames numWorkers (trials i))

/-- The loop `for p := range progress`: the running total, or the fault of
`totalProgress % progressStep` with a zero divisor.  The printed percentage and
remaining time are floating-point output and are left out. -/
def progressLoop (progressStep : Int) : List Int → Int → Except Fault Int
  | [], totalProgress => .ok totalProgress
  | p :: ps, totalProgress =>
    let total := totalProgress + p
    if progressStep = 0 then .error .divideByZero
    else progressLoop progressStep ps total

/-- The values `simulateGames` returns. -/
structure Totals where
  aWins : Nat
  bWins : Nat
  aMovesList : List Nat
  bMovesList : List Nat
deriving DecidableEq, Repr

/-- The body of the loop `for result := range gameResults`. -/
def tally (t : Totals) (result : GameResult) : Totals :=
  { aWins := if result.Winner = "A" then t.aWins + 1 else t.aWins
    bWins := if result.Winner = "A" then t.bWins else t.bWins + 1
    aMovesList := t.aMovesList ++ [result.AMoves]
    bMovesList := t.bMovesList ++ [result.BMoves] }

/-- The loop `for result := range gameResults` over the results received. -/
def aggregate (results : List GameResult) : Totals :=
  results.foldl tally { aWins := 0, bWins := 0, aMovesList := [], bMovesList := [] }

/-- An order in which the scheduler can deliver what the workers send: every
result sent is received once. -/
def IsDelivery (deliver : List (List GameResult) → List GameResult) : Prop :=
  ∀ outs, List.Perm (deliver outs) outs.flatten

/-- The function `simulateGames`.  The results of the trials (`trials`) and the
order in which the channel delivers them (`deliver`) are inputs; every trial
sends one result and one progress unit `1`. -/
def simulateGames (numGames numWorkers : Int) (trials : Nat → Nat → GameResult)
    (deliver : List (List GameResult) → List GameResult) : Except Fault Totals :=
  if numGames < 0 then .error .makechanSize
  else
    let gameResults := deliver (sent numGames numWorkers trials)
    let progress : List Int := gameResults.map (fun _ => 1)
    match progressLoop (determineProgressStep numGames) progress 0 with
    | .error e => .error e
    | .ok _ => .ok (aggregate gameResults)

/-- The card played in the iteration that starts in state `s`. -/
def played (s : State) : Nat := (play s).2

/-- The hand, as it is in state `t`, of the player who moves in state `s`. -/
def moverCards (s t : State) : List Nat :=
  if s.aTurn then t.aDeck.cards t.deck else t.bDeck.cards t.deck

/-- The hand, as it is in state `t`, of the player who moves after the one who
moves in state `s`. -/
def nextCards (s t : State) : List Nat :=
  if s.aTurn then t.bDeck.cards t.deck else t.aDeck.cards t.deck

/-- A shuffle on which B wins. -/
def bShuffle : List Nat :=
  [33, 19, 29, 43, 21, 17, 4, 31, 41, 1, 38, 50, 36, 34, 44, 37, 7, 32, 22, 30, 2, 5, 51, 26, 49,
    6, 3, 39, 9, 47, 10, 20, 11, 28, 15, 13, 24, 12, 35, 14, 46, 27, 23, 25, 8, 0, 40, 45, 16, 48,
    18, 42]

/-- The remapped identity shuffle with the two stores of the first capture. -/
def idDeck2 : List Nat :=
  [1, 2, 3, 4, 5, 6, 7, 8, 9, 10, 11, 12, 13, 1, 2, 3, 4, 5, 6, 7, 8, 9, 10, 11, 12, 13, 1, 1, 3,
    4, 5, 6, 7, 8, 9, 10, 11, 12, 13, 1, 2, 3, 4, 5, 6, 7, 8, 9, 10, 11, 12, 13]

/-- The state of the game on the identity shuffle after three iterations. -/
def idState3 : State :=
  { deck := idDeck2, aDeck := .view 2 28, bDeck := .view 27 52, table := [2], aTurn := false,
    aMoves := 2, bMoves := 1 }

/-- The state of the game on the identity shuffle after four iterations. -/
def idState4 : State :=
  { deck := idDeck2, aDeck := .view 2 28, bDeck := .view 28 52, table := [2, 1], aTurn := true,
    aMoves := 2, bMoves := 2 }

/-- A state in which A plays a 7 onto the pile `[3, 5, 7]`. -/
def capState : State :=
  { deck := [7, 1, 2, 9], aDeck := .view 0 2, bDeck := .view 2 4, table := [3, 5, 7],
    aTurn := true, aMoves := 0, bMoves := 0 }

/-- A state in which B plays a 2 onto the pile `[3, 5, 7]`. -/
def missState : State :=
  { deck := [7, 1, 2, 9], aDeck := .view 0 2, bDeck := .view 2 4, table := [3, 5, 7],
    aTurn := false, aMoves := 1, bMoves := 0 }

/-- Trial results for a run of `simulateGames`: the workers with an even index
get the result of `playGame` on `idShuffle`, the others the one on `bShuffle`. -/
def sampleTrials (i : Nat) (_ : Nat) : GameResult :=
  if i % 2 = 0 then { Winner := "A", AMoves := 41, BMoves := 41 }
  else { Winner := "B", AMoves := 45, BMoves := 44 }

/-- A delivery order: the results of the last worker first. -/
def lastFirst (outs : List (List GameResult)) : List GameResult :=
  outs.flatten.reverse

/-- The totals of 501 trials drawn from `sampleTrials`, delivered by `lastFirst`. -/
def sampleTotals : Totals :=
  { aWins := 251
    bWins := 250
    aMovesList := (List.range 501).map (fun i => if i % 2 = 0 then 41 else 45)
    bMovesList := (List.range 501).map (fun i => if i % 2 = 0 then 41 else 44) }

/-- The player who captures in the iteration that starts in state `s`:
`some true` is A, `some false` is B, `none` when the scan finds no match.  The
cards go to the player named by the turn flag after the flip. -/
def capturer (s : State) : Option Bool :=
  match scan (s.table ++ [played s]) (played s) with
  | some _ => some (!s.aTurn)
  | none => none

/-- No capture goes to player `who` (`true` is A) in the iterations the loop
makes among the first `n` from state `s`. -/
def noCaptureBy (who : Bool) : Nat → State → Bool
  | 0, _ => true
  | n + 1, s =>
    if running s then (capturer s != some who) && noCaptureBy who n (step s) else true

/-- Every rank `1..13` occurs 4 times in `aDeck`, `bDeck` and `table` together. -/
def fourOfEach (s : State) : Bool :=
  (List.range' 1 13).all (fun r => (allCards s).count r == 4)

/-- A shuffle on which B wins after 51 plays. -/
def quickShuffleB : List Nat :=
  [34, 36, 13, 38, 10, 21, 50, 24, 27, 33, 39, 0, 26, 18, 20, 4, 51, 49, 47, 45, 5, 7, 35, 11, 3,
    22, 31, 42, 32, 15, 19, 46, 44, 12, 41, 9, 16, 23, 30, 28, 40, 25, 1, 37, 17, 2, 29, 14, 6, 8,
    48, 43]

/-- The cards player `who` (`true` is A) has in hand plus the cards that player
has played: 26 plus the cards captured so far. -/
def held (who : Bool) (s : State) : Nat :=
  if who then s.aDeck.len + s.aMoves else s.bDeck.len + s.bMoves

/-! ## Slice lemmas -/

theorem writeAt_length (arr : List Nat) (pos : Nat) (xs : List Nat)
    (h : pos + xs.length ≤ arr.length) : (writeAt arr pos xs).length = arr.length := by
  simp only [writeAt, List.length_append, List.length_take, List.length_drop]
  omega

theorem cards_length (deck : List Nat) (h : Hand) (wf : handWF deck h) :
    (h.cards deck).length = h.len := by
  cases h with
  | view lo hi =>
    obtain ⟨h1, h2⟩ := wf
    simp only [Hand.cards, Hand.len, List.length_take, List.length_drop]
    omega
  | own cards => rfl

theorem appendHand_deck_length (deck : List Nat) (h : Hand) (xs : List Nat) :
    (appendHand deck h xs).1.length = deck.length := by
  cases h with
  | view lo hi =>
    simp only [appendHand]
    split
    · exact writeAt_length _ _ _ (by assumption)
    · rfl
  | own cards => rfl

theorem appendHand_len (deck : List Nat) (h : Hand) (xs : List Nat) (wf : handWF deck h) :
    (appendHand deck h xs).2.len = h.len + xs.length := by
  cases h with
  | view lo hi =>
    obtain ⟨h1, h2⟩ := wf
    simp only [appendHand]
    split
    · simp only [Hand.len]; omega
    · simp only [Hand.len, Hand.cards, List.length_append, List.length_take, List.length_drop]
      omega
  | own cards => simp [appendHand, Hand.len]

theorem appendHand_wf (deck : List Nat) (h : Hand) (xs : List Nat) (wf : handWF deck h) :
    handWF (appendHand deck h xs).1 (appendHand deck h xs).2 := by
  cases h with
  | view lo hi =>
    obtain ⟨h1, h2⟩ := wf
    simp only [appendHand]
    split
    · rename_i hc
      simp only [handWF, writeAt_length _ _ _ hc]
      omega
    · trivial
  | own cards => trivial

theorem handWF_congr (deck deck2 : List Nat) (h : Hand) (hl : deck2.length = deck.length)
    (wf : handWF deck h) : handWF deck2 h := by
  cases h with
  | view lo hi => simpa only [handWF, hl] using wf
  | own cards => trivial

theorem view_write (deck xs : List Nat) (lo hi : Nat) (h1 : lo ≤ hi) (h2 : hi ≤ deck.length) :
    List.take (hi + xs.length - lo)
        (List.drop lo (List.take hi deck ++ xs ++ List.drop (hi + xs.length) deck)) =
      List.take (hi - lo) (List.drop lo deck) ++ xs := by
  have hl : (List.take hi deck).length = hi := by simp [h2]
  rw [List.append_assoc, List.drop_append_of_le_length (by omega)]
  have hl2 : (List.drop lo (List.take hi deck)).length = hi - lo := by simp [hl]
  have e : hi + xs.length - lo = (List.drop lo (List.take hi deck)).length + xs.length := by
    omega
  rw [e, List.take_append, List.take_left']
  · congr 1
    rw [List.drop_take]
  · rfl

theorem appendHand_cards (deck : List Nat) (h : Hand) (xs : List Nat) (wf : handWF deck h) :
    (appendHand deck h xs).2.cards (appendHand deck h xs).1 = h.cards deck ++ xs := by
  cases h with
  | view lo hi =>
    obtain ⟨h1, h2⟩ := wf
    simp only [appendHand]
    split
    · simp only [Hand.cards, writeAt]
      exact view_write deck xs lo hi h1 h2
    · rfl
  | own cards => rfl

theorem rest_len (h : Hand) : h.rest.len = h.len - 1 := by
  cases h with
  | view lo hi => simp only [Hand.rest, Hand.len]; omega
  | own cards => simp [Hand.rest, Hand.len]

theorem rest_wf (deck : List Nat) (h : Hand) (wf : handWF deck h) (hpos : 0 < h.len) :
    handWF deck h.rest := by
  cases h with
  | view lo hi =>
    obtain ⟨h1, h2⟩ := wf
    simp only [Hand.len] at hpos
    simp only [Hand.rest, handWF]; omega
  | own cards => trivial

theorem rest_cards (deck : List Nat) (h : Hand) :
    h.rest.cards deck = (h.cards deck).tail := by
  cases h with
  | view lo hi =>
    simp only [Hand.rest, Hand.cards]
    apply List.ext_getElem
    · simp only [List.length_take, List.length_drop, List.length_tail]; omega
    · intro n hn1 hn2
      simp only [List.getElem_take, List.getElem_drop, List.getElem_tail]
      congr 1; omega
  | own cards => rfl

theorem cards_ranks (deck : List Nat) (h : Hand) (hd : ∀ x ∈ deck, IsRank x)
    (hr : handRanks h) : ∀ x ∈ h.cards deck, IsRank x := by
  cases h with
  | view lo hi =>
    intro x hx
    exact hd x (List.mem_of_mem_drop (List.mem_of_mem_take hx))
  | own cards => exact hr

theorem front_rank (deck : List Nat) (h : Hand) (wf : handWF deck h) (hpos : 0 < h.len)
    (hd : ∀ x ∈ deck, IsRank x) (hr : handRanks h) : IsRank (h.front deck) := by
  have hl := cards_length deck h wf
  have hm := cards_ranks deck h hd hr
  unfold Hand.front
  cases hc : h.cards deck with
  | nil => rw [hc] at hl; simp at hl; omega
  | cons a t => rw [hc] at hm; exact hm a (by simp)

theorem rest_ranks (h : Hand) (hr : handRanks h) : handRanks h.rest := by
  cases h with
  | view lo hi => trivial
  | own cards => exact fun x hx => hr x (List.mem_of_mem_tail hx)

theorem appendHand_ranks (deck : List Nat) (h : Hand) (xs : List Nat)
    (hd : ∀ x ∈ deck, IsRank x) (hr : handRanks h) (hx : ∀ x ∈ xs, IsRank x) :
    (∀ x ∈ (appendHand deck h xs).1, IsRank x) ∧ handRanks (appendHand deck h xs).2 := by
  cases h with
  | view lo hi =>
    simp only [appendHand]
    split
    · refine ⟨?_, trivial⟩
      intro x hm
      simp only [writeAt, List.mem_append] at hm
      rcases hm with (hm | hm) | hm
      · exact hd x (List.mem_of_mem_take hm)
      · exact hx x hm
      · exact hd x (List.mem_of_mem_drop hm)
    · refine ⟨hd, ?_⟩
      intro x hm
      simp only [List.mem_append] at hm
      rcases hm with hm | hm
      · exact cards_ranks deck (.view lo hi) hd trivial x hm
      · exact hx x hm
  | own cards =>
    refine ⟨hd, ?_⟩
    intro x hm
    simp only [List.mem_append] at hm
    rcases hm with hm | hm
    · exact hr x hm
    · exact hx x hm

/-! ## The scan -/

theorem scanLoop_some (table : List Nat) (card : Nat) (n i k : Nat)
    (h : scanLoop table card n i = some k) :
    i ≤ k ∧ k < i + n ∧ table.getD k 0 = card ∧ ∀ j, i ≤ j → j < k → table.getD j 0 ≠ card := by
  induction n generalizing i with
  | zero => simp [scanLoop] at h
  | succ n ih =>
    simp only [scanLoop] at h
    split at h
    · rename_i hc
      cases h
      exact ⟨le_refl _, by omega, hc, fun j h1 h2 => by omega⟩
    · rename_i hc
      obtain ⟨h1, h2, h3, h4⟩ := ih (i + 1) h
      refine ⟨by omega, by omega, h3, fun j hj1 hj2 => ?_⟩
      rcases Nat.eq_or_lt_of_le hj1 with e | e
      · subst e; exact hc
      · exact h4 j e hj2

theorem scanLoop_none (table : List Nat) (card : Nat) (n i : Nat)
    (h : scanLoop table card n i = none) :
    ∀ j, i ≤ j → j < i + n → table.getD j 0 ≠ card := by
  induction n generalizing i with
  | zero => intro j h1 h2; omega
  | succ n ih =>
    simp only [scanLoop] at h
    split at h
    · cases h
    · rename_i hc
      intro j h1 h2
      rcases Nat.eq_or_lt_of_le h1 with e | e
      · subst e; exact hc
      · exact ih (i + 1) h j e (by omega)

theorem scanLastLoop_some (table : List Nat) (card : Nat) (n k : Nat)
    (h : scanLastLoop table card n = some k) :
    k < n ∧ table.getD k 0 = card ∧ ∀ j, k < j → j < n → table.getD j 0 ≠ card := by
  induction n with
  | zero => simp [scanLastLoop] at h
  | succ n ih =>
    simp only [scanLastLoop] at h
    split at h
    · rename_i hc
      cases h
      exact ⟨by omega, hc, fun j h1 h2 => by omega⟩
    · rename_i hc
      obtain ⟨h1, h2, h3⟩ := ih h
      refine ⟨by omega, h2, fun j hj1 hj2 => ?_⟩
      rcases Nat.eq_or_lt_of_le (Nat.le_of_lt_succ hj2) with e | e
      · subst e; exact hc
      · exact h3 j hj1 e

theorem scanLastLoop_none (table : List Nat) (card : Nat) (n : Nat)
    (h : scanLastLoop table card n = none) :
    ∀ j, j < n → table.getD j 0 ≠ card := by
  induction n with
  | zero => intro j h1; omega
  | succ n ih =>
    simp only [scanLastLoop] at h
    split at h
    · cases h
    · rename_i hc
      intro j h1
      rcases Nat.eq_or_lt_of_le (Nat.le_of_lt_succ h1) with e | e
      · subst e; exact hc
      · exact ih h j e

theorem getD_snoc_lt (P : List Nat) (c j : Nat) (h : j < P.length) :
    (P ++ [c]).getD j 0 = P.getD j 0 :=
  List.getD_append P [c] 0 j h

theorem getD_mem (P : List Nat) (j : Nat) (h : j < P.length) : P.getD j 0 ∈ P := by
  rw [List.getD_eq_getElem _ _ h]
  exact List.getElem_mem h

theorem mem_getD (P : List Nat) (c : Nat) (h : c ∈ P) : ∃ j, j < P.length ∧ P.getD j 0 = c := by
  obtain ⟨j, hj, e⟩ := List.getElem_of_mem h
  exact ⟨j, hj, by rw [List.getD_eq_getElem _ _ hj]; exact e⟩

/-- The scan of `playGame` on the pile `P` followed by the played card `c`. -/
theorem scan_some (P : List Nat) (c k : Nat) (h : scan (P ++ [c]) c = some k) :
    k < P.length ∧ P.getD k 0 = c ∧ ∀ j, j < k → P.getD j 0 ≠ c := by
  unfold scan at h
  simp only [List.length_append, List.length_singleton, Nat.add_sub_cancel] at h
  obtain ⟨_, h2, h3, h4⟩ := scanLoop_some _ _ _ _ _ h
  have hk : k < P.length := by omega
  refine ⟨hk, by rw [← getD_snoc_lt P c k hk]; exact h3, fun j hj => ?_⟩
  rw [← getD_snoc_lt P c j (by omega)]
  exact h4 j (Nat.zero_le _) hj

theorem scan_none (P : List Nat) (c : Nat) (h : scan (P ++ [c]) c = none) : c ∉ P := by
  unfold scan at h
  simp only [List.length_append, List.length_singleton, Nat.add_sub_cancel] at h
  intro hm
  obtain ⟨j, hj, e⟩ := mem_getD P c hm
  exact scanLoop_none _ _ _ _ h j (Nat.zero_le _) (by omega) (by rw [getD_snoc_lt P c j hj]; exact e)

theorem scanLast_some (P : List Nat) (c k : Nat) (h : scanLast (P ++ [c]) c = some k) :
    k < P.length ∧ P.getD k 0 = c ∧ ∀ j, k < j → j < P.length → P.getD j 0 ≠ c := by
  unfold scanLast at h
  simp only [List.length_append, List.length_singleton, Nat.add_sub_cancel] at h
  obtain ⟨h2, h3, h4⟩ := scanLastLoop_some _ _ _ _ h
  refine ⟨h2, by rw [← getD_snoc_lt P c k h2]; exact h3, fun j hj1 hj2 => ?_⟩
  rw [← getD_snoc_lt P c j hj2]
  exact h4 j hj1 hj2

theorem scanLast_none (P : List Nat) (c : Nat) (h : scanLast (P ++ [c]) c = none) : c ∉ P := by
  unfold scanLast at h
  simp only [List.length_append, List.length_singleton, Nat.add_sub_cancel] at h
  intro hm
  obtain ⟨j, hj, e⟩ := mem_getD P c hm
  exact scanLastLoop_none _ _ _ h j hj (by rw [getD_snoc_lt P c j hj]; exact e)

/-- A pile without repeated ranks holds a rank at one index only. -/
theorem nodup_getD_inj (P : List Nat) (hn : P.Nodup) (i j : Nat) (hi : i < P.length)
    (hj : j < P.length) (e : P.getD i 0 = P.getD j 0) : i = j := by
  rw [List.getD_eq_getElem _ _ hi, List.getD_eq_getElem _ _ hj] at e
  exact (List.Nodup.getElem_inj_iff hn).mp e

/-- On a pile without repeated ranks the two tie-breaks find the same index. -/
theorem scan_eq_scanLast (P : List Nat) (c : Nat) (hn : P.Nodup) :
    scan (P ++ [c]) c = scanLast (P ++ [c]) c := by
  cases h1 : scan (P ++ [c]) c with
  | none =>
    cases h2 : scanLast (P ++ [c]) c with
    | none => rfl
    | some k =>
      obtain ⟨hk, e, _⟩ := scanLast_some P c k h2
      exact absurd (e ▸ getD_mem P k hk) (scan_none P c h1)
  | some i =>
    obtain ⟨hi, ei, _⟩ := scan_some P c i h1
    cases h2 : scanLast (P ++ [c]) c with
    | none => exact absurd (ei ▸ getD_mem P i hi) (scanLast_none P c h2)
    | some k =>
      obtain ⟨hk, ek, _⟩ := scanLast_some P c k h2
      rw [nodup_getD_inj P hn i k hi hk (ei.trans ek.symm)]
/-! ## One iteration -/

/-- The four ways one iteration of the loop can go: the player to move is A or
B, and the scan finds no match or a match at index `i`. -/
theorem stepWith_cases (sc : List Nat → Nat → Option Nat) (s : State) (motive : State → Prop)
    (hA0 : s.aTurn = true →
      sc (s.table ++ [s.aDeck.front s.deck]) (s.aDeck.front s.deck) = none →
      motive
        { deck := s.deck, aDeck := s.aDeck.rest, bDeck := s.bDeck,
          table := s.table ++ [s.aDeck.front s.deck], aTurn := false,
          aMoves := s.aMoves + 1, bMoves := s.bMoves })
    (hA1 : ∀ i, s.aTurn = true →
      sc (s.table ++ [s.aDeck.front s.deck]) (s.aDeck.front s.deck) = some i →
      motive
        { deck := (appendHand s.deck s.bDeck ((s.table ++ [s.aDeck.front s.deck]).drop i)).1,
          aDeck := s.aDeck.rest,
          bDeck := (appendHand s.deck s.bDeck ((s.table ++ [s.aDeck.front s.deck]).drop i)).2,
          table := (s.table ++ [s.aDeck.front s.deck]).take i, aTurn := false,
          aMoves := s.aMoves + 1, bMoves := s.bMoves })
    (hB0 : s.aTurn = false →
      sc (s.table ++ [s.bDeck.front s.deck]) (s.bDeck.front s.deck) = none →
      motive
        { deck := s.deck, aDeck := s.aDeck, bDeck := s.bDeck.rest,
          table := s.table ++ [s.bDeck.front s.deck], aTurn := true,
          aMoves := s.aMoves, bMoves := s.bMoves + 1 })
    (hB1 : ∀ i, s.aTurn = false →
      sc (s.table ++ [s.bDeck.front s.deck]) (s.bDeck.front s.deck) = some i →
      motive
        { deck := (appendHand s.deck s.aDeck ((s.table ++ [s.bDeck.front s.deck]).drop i)).1,
          aDeck := (appendHand s.deck s.aDeck ((s.table ++ [s.bDeck.front s.deck]).drop i)).2,
          bDeck := s.bDeck.rest,
          table := (s.table ++ [s.bDeck.front s.deck]).take i, aTurn := true,
          aMoves := s.aMoves, bMoves := s.bMoves + 1 }) :
    motive (stepWith sc s) := by
  cases ht : s.aTurn with
  | true =>
    cases hs : sc (s.table ++ [s.aDeck.front s.deck]) (s.aDeck.front s.deck) with
    | none =>
      have := hA0 ht hs
      simpa [stepWith, play, capture, ht, hs] using this
    | some i =>
      have := hA1 i ht hs
      simpa [stepWith, play, capture, ht, hs] using this
  | false =>
    cases hs : sc (s.table ++ [s.bDeck.front s.deck]) (s.bDeck.front s.deck) with
    | none =>
      have := hB0 ht hs
      simpa [stepWith, play, capture, ht, hs] using this
    | some i =>
      have := hB1 i ht hs
      simpa [stepWith, play, capture, ht, hs] using this

theorem running_pos (s : State) (hr : running s = true) : 0 < s.aDeck.len ∧ 0 < s.bDeck.len := by
  simpa [running] using hr

theorem snoc_ranks (P : List Nat) (c : Nat) (hP : ∀ x ∈ P, IsRank x) (hc : IsRank c) :
    ∀ x ∈ P ++ [c], IsRank x := by
  intro x hx
  simp only [List.mem_append, List.mem_singleton] at hx
  rcases hx with hx | hx
  · exact hP x hx
  · exact hx ▸ hc

theorem split_lengths (T : List Nat) (i : Nat) : (T.drop i).length + (T.take i).length = T.length := by
  simp only [List.length_take, List.length_drop]; omega

/-- The invariant of the loop of `playGame` holds at the first test of the loop
condition. -/
theorem inv_init (perm : List Nat) (hp : perm.length = 52) : Inv (init perm) where
  wfA := by simp [init, handWF, hp]
  wfB := by simp [init, handWF, hp]
  total := by simp [init, Hand.len]
  turnA := fun _ => rfl
  turnB := by simp [init]
  lowA := by simp [init, Hand.len]
  lowB := by simp [init, Hand.len]
  emptyA := by simp [init, Hand.len]
  emptyB := by simp [init, Hand.len]
  ranksDeck := by
    intro x hx
    simp only [init, List.mem_map] at hx
    obtain ⟨v, _, rfl⟩ := hx
    exact ⟨by omega, by omega⟩
  ranksA := trivial
  ranksB := trivial
  ranksTable := by simp [init]

/-- The invariant of the loop of `playGame` is kept by every iteration, with
either tie-break of the scan. -/
theorem inv_stepWith (sc : List Nat → Nat → Option Nat) (s : State) (hi : Inv s)
    (hr : running s = true) : Inv (stepWith sc s) := by
  obtain ⟨ha, hb⟩ := running_pos s hr
  have hcA := front_rank s.deck s.aDeck hi.wfA ha hi.ranksDeck hi.ranksA
  have hcB := front_rank s.deck s.bDeck hi.wfB hb hi.ranksDeck hi.ranksB
  have hTA := snoc_ranks s.table _ hi.ranksTable hcA
  have hTB := snoc_ranks s.table _ hi.ranksTable hcB
  have hra := rest_len s.aDeck
  have hrb := rest_len s.bDeck
  have htot := hi.total
  have hlA := hi.lowA
  have hlB := hi.lowB
  apply stepWith_cases sc s Inv
  · intro ht _
    exact
      { wfA := rest_wf _ _ hi.wfA ha
        wfB := hi.wfB
        total := by simp only [List.length_append, List.length_singleton]; omega
        turnA := by simp
        turnB := fun _ => by simp only; rw [hi.turnA ht]
        lowA := by simp only; omega
        lowB := hi.lowB
        emptyA := fun _ => rfl
        emptyB := fun h => by simp only at h; omega
        ranksDeck := hi.ranksDeck
        ranksA := rest_ranks _ hi.ranksA
        ranksB := hi.ranksB
        ranksTable := hTA }
  · intro i ht _
    have hX : ∀ x ∈ (s.table ++ [s.aDeck.front s.deck]).drop i, IsRank x :=
      fun x hx => hTA x (List.mem_of_mem_drop hx)
    have hsp := split_lengths (s.table ++ [s.aDeck.front s.deck]) i
    simp only [List.length_append, List.length_singleton] at hsp
    have hap := appendHand_len s.deck s.bDeck ((s.table ++ [s.aDeck.front s.deck]).drop i) hi.wfB
    have hrk := appendHand_ranks s.deck s.bDeck _ hi.ranksDeck hi.ranksB hX
    exact
      { wfA := handWF_congr s.deck _ _ (appendHand_deck_length _ _ _) (rest_wf _ _ hi.wfA ha)
        wfB := appendHand_wf _ _ _ hi.wfB
        total := by simp only; omega
        turnA := by simp
        turnB := fun _ => by simp only; rw [hi.turnA ht]
        lowA := by simp only; omega
        lowB := by simp only; omega
        emptyA := fun _ => rfl
        emptyB := fun h => by simp only at h; omega
        ranksDeck := hrk.1
        ranksA := rest_ranks _ hi.ranksA
        ranksB := hrk.2
        ranksTable := fun x hx => hTA x (List.mem_of_mem_take hx) }
  · intro ht _
    exact
      { wfA := hi.wfA
        wfB := rest_wf _ _ hi.wfB hb
        total := by simp only [List.length_append, List.length_singleton]; omega
        turnA := fun _ => by simp only; have := hi.turnB ht; omega
        turnB := by simp
        lowA := hi.lowA
        lowB := by simp only; omega
        emptyA := fun h => by simp only at h; omega
        emptyB := fun _ => rfl
        ranksDeck := hi.ranksDeck
        ranksA := hi.ranksA
        ranksB := rest_ranks _ hi.ranksB
        ranksTable := hTB }
  · intro i ht _
    have hX : ∀ x ∈ (s.table ++ [s.bDeck.front s.deck]).drop i, IsRank x :=
      fun x hx => hTB x (List.mem_of_mem_drop hx)
    have hsp := split_lengths (s.table ++ [s.bDeck.front s.deck]) i
    simp only [List.length_append, List.length_singleton] at hsp
    have hap := appendHand_len s.deck s.aDeck ((s.table ++ [s.bDeck.front s.deck]).drop i) hi.wfA
    have hrk := appendHand_ranks s.deck s.aDeck _ hi.ranksDeck hi.ranksA hX
    exact
      { wfA := appendHand_wf _ _ _ hi.wfA
        wfB := handWF_congr s.deck _ _ (appendHand_deck_length _ _ _) (rest_wf _ _ hi.wfB hb)
        total := by simp only; omega
        turnA := fun _ => by simp only; have := hi.turnB ht; omega
        turnB := by simp
        lowA := by simp only; omega
        lowB := by simp only; omega
        emptyA := fun h => by simp only at h; omega
        emptyB := fun _ => rfl
        ranksDeck := hrk.1
        ranksA := hrk.2
        ranksB := rest_ranks _ hi.ranksB
        ranksTable := fun x hx => hTB x (List.mem_of_mem_take hx) }

/-- The pile holds no rank twice after an iteration if it held none twice before. -/
theorem nodup_step (s : State) (hn : s.table.Nodup) : (step s).table.Nodup := by
  apply stepWith_cases scan s (fun t => t.table.Nodup)
  · intro _ hs
    have := scan_none _ _ hs
    exact List.nodup_append.mpr ⟨hn, List.nodup_singleton _, by simpa using this⟩
  · intro i _ hs
    obtain ⟨hk, _, _⟩ := scan_some _ _ _ hs
    simp only
    rw [List.take_append_of_le_length (by omega)]
    exact hn.sublist (List.take_sublist _ _)
  · intro _ hs
    have := scan_none _ _ hs
    exact List.nodup_append.mpr ⟨hn, List.nodup_singleton _, by simpa using this⟩
  · intro i _ hs
    obtain ⟨hk, _, _⟩ := scan_some _ _ _ hs
    simp only
    rw [List.take_append_of_le_length (by omega)]
    exact hn.sublist (List.take_sublist _ _)

/-- On a pile that holds no rank twice an iteration does the same with either
tie-break. -/
theorem stepWith_scanLast (s : State) (hn : s.table.Nodup) :
    stepWith scanLast s = stepWith scan s := by
  have e : ∀ c, scanLast (s.table ++ [c]) c = scan (s.table ++ [c]) c :=
    fun c => (scan_eq_scanLast s.table c hn).symm
  cases ht : s.aTurn <;> simp [stepWith, play, ht, e]

/-! ## Runs of the loop -/

theorem iters_inv (n : Nat) (s t : State) (hi : Inv s) (h : iters n s = some t) : Inv t := by
  induction n generalizing s with
  | zero => simp only [iters, itersWith, Option.some.injEq] at h; exact h ▸ hi
  | succ n ih =>
    simp only [iters, itersWith] at h
    split at h
    · rename_i hr
      exact ih _ (inv_stepWith scan s hi hr) h
    · cases h

theorem iters_nodup (n : Nat) (s t : State) (hn : s.table.Nodup) (h : iters n s = some t) :
    t.table.Nodup := by
  induction n generalizing s with
  | zero => simp only [iters, itersWith, Option.some.injEq] at h; exact h ▸ hn
  | succ n ih =>
    simp only [iters, itersWith] at h
    split at h
    · exact ih _ (nodup_step s hn) h
    · cases h

/-- The exit state of the loop is reached after some number of iterations, at
most `fuel`, and the loop condition fails there. -/
theorem loop_exit (fuel : Nat) (s t : State) (h : loopWith scan fuel s = some t) :
    ∃ n, n ≤ fuel ∧ iters n s = some t ∧ running t = false := by
  induction fuel generalizing s with
  | zero =>
    simp only [loopWith] at h
    split at h
    · cases h
    · rename_i hr
      cases h
      exact ⟨0, le_refl _, rfl, by simpa using hr⟩
  | succ fuel ih =>
    simp only [loopWith] at h
    split at h
    · rename_i hr
      obtain ⟨n, h1, h2, h3⟩ := ih _ h
      exact ⟨n + 1, by omega, by simp only [iters, itersWith, hr, if_true]; exact h2, h3⟩
    · rename_i hr
      cases h
      exact ⟨0, Nat.zero_le _, rfl, by simpa using hr⟩

/-- Every iteration is one play. -/
theorem iters_moves (n : Nat) (s t : State) (h : iters n s = some t) :
    t.aMoves + t.bMoves = s.aMoves + s.bMoves + n := by
  induction n generalizing s with
  | zero => simp only [iters, itersWith, Option.some.injEq] at h; subst h; rfl
  | succ n ih =>
    simp only [iters, itersWith] at h
    split at h
    · have e := ih _ h
      have e2 : (stepWith scan s).aMoves + (stepWith scan s).bMoves = s.aMoves + s.bMoves + 1 := by
        apply stepWith_cases scan s (fun t => t.aMoves + t.bMoves = s.aMoves + s.bMoves + 1)
        all_goals intros; simp only; omega
      omega
    · cases h

/-- With either tie-break the loop runs through the same states. -/
theorem loopWith_scanLast (fuel : Nat) (s : State) (hn : s.table.Nodup) :
    loopWith scanLast fuel s = loopWith scan fuel s := by
  induction fuel generalizing s with
  | zero => rfl
  | succ fuel ih =>
    simp only [loopWith]
    split
    · rw [stepWith_scanLast s hn]
      exact ih _ (nodup_step s hn)
    · rfl

theorem shuffle_length (perm : List Nat) (hp : IsShuffle perm) : perm.length = 52 := by
  have := List.Perm.length_eq hp
  simpa using this


theorem scan_lowest (P : List Nat) (c i : Nat) (hi : i < P.length) (e : P.getD i 0 = c)
    (hmin : ∀ j, j < i → P.getD j 0 ≠ c) : scan (P ++ [c]) c = some i := by
  cases h : scan (P ++ [c]) c with
  | none => exact absurd (e ▸ getD_mem P i hi) (scan_none P c h)
  | some k =>
    obtain ⟨_, ek, hk⟩ := scan_some P c k h
    rcases Nat.lt_trichotomy i k with h1 | h1 | h1
    · exact absurd e (hk i h1)
    · rw [h1]
    · exact absurd ek (hmin k h1)

theorem scan_absent (P : List Nat) (c : Nat) (h : ∀ j, j < P.length → P.getD j 0 ≠ c) :
    scan (P ++ [c]) c = none := by
  cases hs : scan (P ++ [c]) c with
  | none => rfl
  | some k =>
    obtain ⟨hk, ek, _⟩ := scan_some P c k hs
    exact absurd ek (h k hk)

/-! ## The claims about the game engine -/

/-- C1: card-count conservation in `playGame`.  For every permutation of 0..51
used as the shuffle, the loop starts with hands of 26 and 26 cards and an empty
pile, and at the start and after every completed iteration
`len(aDeck) + len(bDeck) + len(table) = 52`; the three slices together hold 52
elements. -/
theorem C1_card_count_conservation (perm : List Nat) (n : Nat) (s : State)
    (hp : IsShuffle perm) (h : iters n (init perm) = some s) :
    ((init perm).aDeck.len = 26 ∧ (init perm).bDeck.len = 26 ∧ (init perm).table = []) ∧
      s.aDeck.len + s.bDeck.len + s.table.length = 52 ∧ (allCards s).length = 52 := by
  have hi := iters_inv n _ s (inv_init perm (shuffle_length perm hp)) h
  refine ⟨⟨rfl, rfl, rfl⟩, hi.total, ?_⟩
  simp only [allCards, List.length_append, cards_length _ _ hi.wfA, cards_length _ _ hi.wfB]
  exact hi.total

/-- C2: the capture step of `playGame`.  In a state where the loop runs, with
pile `P` and played card `c`: if `i` is the lowest index with `P[i] = c`, one iteration
appends `P[i:]` followed by `c` to the hand of the player who moves next and
leaves the pile `P[:i]`; if no index of `P` holds `c`, the pile becomes `P`
followed by `c`, the hand of the player who moves next is unchanged and the
hand of the player who moved has lost its front card only. -/
theorem C2_capture_step (s : State) (hA : handWF s.deck s.aDeck) (hB : handWF s.deck s.bDeck)
    (_hr : running s = true) :
    (∀ i, i < s.table.length → s.table.getD i 0 = played s →
        (∀ j, j < i → s.table.getD j 0 ≠ played s) →
        nextCards s (step s) = nextCards s s ++ (s.table.drop i ++ [played s]) ∧
          (step s).table = s.table.take i) ∧
      ((∀ j, j < s.table.length → s.table.getD j 0 ≠ played s) →
        (step s).table = s.table ++ [played s] ∧
          nextCards s (step s) = nextCards s s ∧
          moverCards s (step s) = (moverCards s s).tail) := by
  constructor
  · intro i hi e hmin
    have hs := scan_lowest s.table (played s) i hi e hmin
    have hd : List.drop i (s.table ++ [played s]) = List.drop i s.table ++ [played s] :=
      List.drop_append_of_le_length (by omega)
    have ht : List.take i (s.table ++ [played s]) = List.take i s.table :=
      List.take_append_of_le_length (by omega)
    cases hturn : s.aTurn with
    | true =>
      have hc : played s = s.aDeck.front s.deck := by simp [played, play, hturn]
      rw [hc] at hs hd ht
      have := appendHand_cards s.deck s.bDeck (List.drop i (s.table ++ [s.aDeck.front s.deck])) hB
      simp only [step, stepWith, play, capture, hturn, hs, nextCards, hc, if_true, Bool.not_true]
      simp only [Bool.false_eq_true, if_false]
      exact ⟨by rw [this, hd], ht⟩
    | false =>
      have hc : played s = s.bDeck.front s.deck := by simp [played, play, hturn]
      rw [hc] at hs hd ht
      have := appendHand_cards s.deck s.aDeck (List.drop i (s.table ++ [s.bDeck.front s.deck])) hA
      simp only [step, stepWith, play, capture, hturn, hs, nextCards, hc, Bool.false_eq_true,
        if_false, Bool.not_false, if_true]
      exact ⟨by rw [this, hd], ht⟩
  · intro hno
    have hs := scan_absent s.table (played s) hno
    cases hturn : s.aTurn with
    | true =>
      have hc : played s = s.aDeck.front s.deck := by simp [played, play, hturn]
      rw [hc] at hs
      simp only [step, stepWith, play, hturn, hs, nextCards, moverCards, hc, if_true]
      exact ⟨trivial, trivial, rest_cards _ _⟩
    | false =>
      have hc : played s = s.bDeck.front s.deck := by simp [played, play, hturn]
      rw [hc] at hs
      simp only [step, stepWith, play, hturn, hs, nextCards, moverCards, hc, Bool.false_eq_true,
        if_false]
      exact ⟨trivial, trivial, rest_cards _ _⟩

/-- The conservation theorem on the identity shuffle, three iterations in. -/
theorem C1_card_count_conservation_witness :
    IsShuffle idShuffle ∧ iters 3 (init idShuffle) = some idState3 ∧
      (((init idShuffle).aDeck.len = 26 ∧ (init idShuffle).bDeck.len = 26 ∧
          (init idShuffle).table = []) ∧
        idState3.aDeck.len + idState3.bDeck.len + idState3.table.length = 52 ∧
        (allCards idState3).length = 52) :=
  ⟨List.Perm.refl _, by decide,
    C1_card_count_conservation idShuffle 3 idState3 (List.Perm.refl _) (by decide)⟩

/-- The capture theorem on the pile `[3, 5, 7]`: a played 7 captures `[7, 7]` and
leaves `[3, 5]`; a played 2 stays on the pile. -/
theorem C2_capture_step_witness :
    running capState = true ∧ running missState = true ∧
    (played capState = 7 ∧ nextCards capState capState = [2, 9] ∧
        nextCards capState (step capState) = [2, 9] ++ ([7] ++ [7]) ∧
        (step capState).table = [3, 5]) ∧
      (played missState = 2 ∧ (step missState).table = [3, 5, 7, 2] ∧
        nextCards missState (step missState) = [7, 1] ∧
        moverCards missState (step missState) = [9]) := by
  have hA : handWF capState.deck capState.aDeck := ⟨by decide, by decide⟩
  have hB : handWF capState.deck capState.bDeck := ⟨by decide, by decide⟩
  have h1 := (C2_capture_step capState hA hB (by decide)).1 2 (by decide) (by decide) (by decide)
  have h2 := (C2_capture_step missState hA hB (by decide)).2 (by decide)
  exact ⟨by decide, by decide, ⟨by decide, by decide, h1.1, h1.2⟩,
    ⟨by decide, h2.1, h2.2.1, h2.2.2⟩⟩

/-- C3, evaluated on the identity shuffle: at the start ranks 1 and 2 occur 4
times each in `aDeck`, `bDeck` and `table` together; A plays `deck[0] = 1`, B
plays `deck[26] = 1`, and `append(aDeck, table[0:]...)` stores the two captured
cards in place at `deck[26]` and `deck[27]`, the front of `bDeck`; after this
second iteration rank 1 occurs 5 times and rank 2 occurs 3 times. -/
theorem C3_identity_shuffle_changes_the_cards :
    IsShuffle idShuffle ∧
      (allCards (init idShuffle)).count 1 = 4 ∧ (allCards (init idShuffle)).count 2 = 4 ∧
      (iters 2 (init idShuffle)).map (fun s => (s.deck, s.aDeck, s.bDeck, s.table)) =
        some (idDeck2, Hand.view 1 28, Hand.view 27 52, []) ∧
      (iters 2 (init idShuffle)).map (fun s => (allCards s).count 1) = some 5 ∧
      (iters 2 (init idShuffle)).map (fun s => (allCards s).count 2) = some 3 :=
  ⟨List.Perm.refl _, by decide, by decide, by decide, by decide, by decide⟩

/-- What holds where the loop of `playGame` exits: the invariant, the failed loop
condition, and one play per iteration run. -/
theorem exit_facts (perm : List Nat) (fuel : Nat) (r : GameResult) (hp : IsShuffle perm)
    (h : playGame fuel perm = some r) :
    ∃ s n, exitState fuel perm = some s ∧ r = finish s ∧ Inv s ∧ running s = false ∧
      n ≤ fuel ∧ iters n (init perm) = some s ∧ s.aMoves + s.bMoves = n := by
  simp only [playGame, Option.map_eq_some'] at h
  obtain ⟨s, hs, hf⟩ := h
  obtain ⟨n, hn, hit, hrun⟩ := loop_exit fuel _ s hs
  have hm := iters_moves n _ s hit
  exact ⟨s, n, hs, hf.symm, iters_inv n _ s (inv_init perm (shuffle_length perm hp)) hit, hrun,
    hn, hit, by simpa [init] using hm⟩

theorem exit_empty (s : State) (hi : Inv s) (hr : running s = false) :
    (s.aDeck.len = 0 ∧ 0 < s.bDeck.len ∧ s.aTurn = false) ∨
      (0 < s.aDeck.len ∧ s.bDeck.len = 0 ∧ s.aTurn = true) := by
  have h : s.aDeck.len = 0 ∨ s.bDeck.len = 0 := by
    simp only [running, Bool.and_eq_false_iff, decide_eq_false_iff_not] at hr
    omega
  rcases h with h | h
  · have ht := hi.emptyA h
    left
    refine ⟨h, ?_, ht⟩
    rcases Nat.eq_zero_or_pos s.bDeck.len with hb | hb
    · have := hi.emptyB hb; rw [ht] at this; cases this
    · exact hb
  · have ht := hi.emptyB h
    right
    refine ⟨?_, h, ht⟩
    rcases Nat.eq_zero_or_pos s.aDeck.len with ha | ha
    · have := hi.emptyA ha; rw [ht] at this; cases this
    · exact ha

/-- C4: no ties.  For every shuffle on which `playGame` returns, exactly one of
`aDeck` and `bDeck` is empty where the loop exits, the returned `Winner` is
"A" or "B", it is "B" iff `aDeck` is empty and "A" iff `bDeck` is empty. -/
theorem C4_no_ties (perm : List Nat) (fuel : Nat) (r : GameResult) (hp : IsShuffle perm)
    (h : playGame fuel perm = some r) :
    ∃ s, exitState fuel perm = some s ∧ r = finish s ∧
      ((s.aDeck.len = 0 ∧ 0 < s.bDeck.len) ∨ (0 < s.aDeck.len ∧ s.bDeck.len = 0)) ∧
      (r.Winner = "A" ∨ r.Winner = "B") ∧
      (r.Winner = "B" ↔ s.aDeck.len = 0) ∧ (r.Winner = "A" ↔ s.bDeck.len = 0) := by
  obtain ⟨s, n, hs, hf, hi, hr, _, _, _⟩ := exit_facts perm fuel r hp h
  refine ⟨s, hs, hf, ?_⟩
  subst hf
  rcases exit_empty s hi hr with ⟨ha, hb, _⟩ | ⟨ha, hb, _⟩
  · refine ⟨Or.inl ⟨ha, hb⟩, Or.inr ?_, ?_, ?_⟩
    · simp [finish, ha]
    · simp [finish, ha]
    · simp only [finish, ha, if_true]
      constructor
      · intro e; exact absurd e (by decide)
      · intro e; omega
  · have ha2 : s.aDeck.len ≠ 0 := by omega
    refine ⟨Or.inr ⟨ha, hb⟩, Or.inl ?_, ?_, ?_⟩
    · simp [finish, ha2]
    · simp only [finish, if_neg ha2]
      constructor
      · intro e; exact absurd e (by decide)
      · intro e; exact absurd e ha2
    · simp [finish, ha2, hb]

/-- The no-ties theorem on the identity shuffle, which A wins after 82 plays. -/
theorem C4_no_ties_witness :
    IsShuffle idShuffle ∧
      playGame 82 idShuffle = some { Winner := "A", AMoves := 41, BMoves := 41 } ∧
      ∃ s, exitState 82 idShuffle = some s ∧
        ({ Winner := "A", AMoves := 41, BMoves := 41 } : GameResult) = finish s ∧
        ((s.aDeck.len = 0 ∧ 0 < s.bDeck.len) ∨ (0 < s.aDeck.len ∧ s.bDeck.len = 0)) ∧
        (("A" : String) = "A" ∨ ("A" : String) = "B") ∧
        (("A" : String) = "B" ↔ s.aDeck.len = 0) ∧ (("A" : String) = "A" ↔ s.bDeck.len = 0) :=
  ⟨List.Perm.refl _, by decide,
    C4_no_ties idShuffle 82 { Winner := "A", AMoves := 41, BMoves := 41 } (List.Perm.refl _)
      (by decide)⟩

/-! ## Runs of at most 52 plays -/

theorem iters_succ (n : Nat) (s t : State) (h : iters n s = some t) (hr : running t = true) :
    iters (n + 1) s = some (step t) := by
  induction n generalizing s with
  | zero =>
    simp only [iters, itersWith, Option.some.injEq] at h
    subst h
    simp [iters, itersWith, hr, step]
  | succ n ih =>
    simp only [iters, itersWith] at h
    split at h
    · rename_i hs
      have := ih _ h
      simp only [iters, itersWith, hs, if_true] at this ⊢
      exact this
    · cases h

/-- The loop exits in the first state that fails the loop condition. -/
theorem loop_of_iters (n fuel : Nat) (s t : State) (h : iters n s = some t)
    (hr : running t = false) (hn : n ≤ fuel) : loopWith scan fuel s = some t := by
  induction n generalizing s fuel with
  | zero =>
    simp only [iters, itersWith, Option.some.injEq] at h
    subst h
    cases fuel <;> simp [loopWith, hr]
  | succ n ih =>
    simp only [iters, itersWith] at h
    split at h
    · rename_i hs
      cases fuel with
      | zero => omega
      | succ fuel =>
        simp only [loopWith, hs, if_true]
        exact ih fuel _ h (by omega)
    · cases h

/-- The loop is still running after `fuel` plays when it makes one more. -/
theorem loop_none_of_iters (fuel : Nat) (s t : State) (h : iters (fuel + 1) s = some t) :
    loopWith scan fuel s = none := by
  induction fuel generalizing s with
  | zero =>
    simp only [iters, itersWith] at h
    split at h
    · rename_i hs; simp [loopWith, hs]
    · cases h
  | succ fuel ih =>
    have h2 : (if running s then itersWith scan (fuel + 1) (stepWith scan s) else none) =
        some t := h
    split at h2
    · rename_i hs
      simp only [loopWith, hs, if_true]
      exact ih _ h2
    · cases h2

/-- Either the loop makes `n` iterations or it exits before. -/
theorem iters_or_exit (n : Nat) (s : State) :
    (∃ t, iters n s = some t) ∨ ∃ j t, j < n ∧ iters j s = some t ∧ running t = false := by
  induction n with
  | zero => exact Or.inl ⟨s, rfl⟩
  | succ n ih =>
    rcases ih with ⟨t, ht⟩ | ⟨j, t, hj, ht, hr⟩
    · cases hr : running t with
      | true => exact Or.inl ⟨step t, iters_succ n s t ht hr⟩
      | false => exact Or.inr ⟨n, t, by omega, ht, hr⟩
    · exact Or.inr ⟨j, t, by omega, ht, hr⟩

theorem exit_moves (s : State) (hi : Inv s) (hr : running s = false) :
    51 ≤ s.aMoves + s.bMoves := by
  have hA := hi.lowA
  have hB := hi.lowB
  rcases exit_empty s hi hr with ⟨ha, _, ht⟩ | ⟨_, hb, ht⟩
  · have := hi.turnB ht; omega
  · have := hi.turnA ht; omega

/-- On every shuffle the loop of `playGame` makes 51 iterations. -/
theorem runs_51 (perm : List Nat) (hp : IsShuffle perm) : ∃ t, iters 51 (init perm) = some t := by
  rcases iters_or_exit 51 (init perm) with h | ⟨j, t, hj, ht, hr⟩
  · exact h
  · have hi := iters_inv j _ t (inv_init perm (shuffle_length perm hp)) ht
    have hm := iters_moves j _ t ht
    have := exit_moves t hi hr
    simp only [init] at hm
    omega

theorem capturer_none (s : State) (h : scan (s.table ++ [played s]) (played s) = none) :
    capturer s = none := by
  simp [capturer, h]

theorem capturer_some (s : State) (i : Nat)
    (h : scan (s.table ++ [played s]) (played s) = some i) :
    capturer s = some (!s.aTurn) ∧ 1 ≤ ((s.table ++ [played s]).drop i).length := by
  obtain ⟨hk, _, _⟩ := scan_some _ _ _ h
  refine ⟨by simp [capturer, h], ?_⟩
  simp only [List.length_drop, List.length_append, List.length_singleton]
  omega

theorem played_a (s : State) (ht : s.aTurn = true) : played s = s.aDeck.front s.deck := by
  simp [played, play, ht]

theorem played_b (s : State) (ht : s.aTurn = false) : played s = s.bDeck.front s.deck := by
  simp [played, play, ht]

/-- An iteration leaves `held who` as it is unless `who` captures, and then it
grows. -/
theorem held_step (who : Bool) (s : State) (hi : Inv s) (hr : running s = true) :
    (capturer s ≠ some who → held who (step s) = held who s) ∧
      (capturer s = some who → held who s < held who (step s)) := by
  obtain ⟨ha, hb⟩ := running_pos s hr
  have hra := rest_len s.aDeck
  have hrb := rest_len s.bDeck
  unfold step
  apply stepWith_cases scan s
    (fun t => (capturer s ≠ some who → held who t = held who s) ∧
      (capturer s = some who → held who s < held who t))
  · intro ht hs
    have hc := capturer_none s (by rw [played_a s ht]; exact hs)
    rw [hc]
    refine ⟨fun _ => ?_, fun h => by cases h⟩
    cases who <;> (simp only [held, if_true, Bool.false_eq_true, if_false]; try omega)
  · intro i ht hs
    obtain ⟨hc, hk⟩ := capturer_some s i (by rw [played_a s ht]; exact hs)
    rw [played_a s ht] at hk
    have hap := appendHand_len s.deck s.bDeck ((s.table ++ [s.aDeck.front s.deck]).drop i) hi.wfB
    rw [hc, ht]
    cases who
    · refine ⟨fun h => absurd rfl h, fun _ => ?_⟩
      simp only [held, Bool.false_eq_true, if_false]; omega
    · refine ⟨fun _ => ?_, fun h => by simp at h⟩
      simp only [held, if_true]; omega
  · intro ht hs
    have hc := capturer_none s (by rw [played_b s ht]; exact hs)
    rw [hc]
    refine ⟨fun _ => ?_, fun h => by cases h⟩
    cases who <;> (simp only [held, if_true, Bool.false_eq_true, if_false]; try omega)
  · intro i ht hs
    obtain ⟨hc, hk⟩ := capturer_some s i (by rw [played_b s ht]; exact hs)
    rw [played_b s ht] at hk
    have hap := appendHand_len s.deck s.aDeck ((s.table ++ [s.bDeck.front s.deck]).drop i) hi.wfA
    rw [hc, ht]
    cases who
    · refine ⟨fun _ => ?_, fun h => by simp at h⟩
      simp only [held, Bool.false_eq_true, if_false]; omega
    · refine ⟨fun h => absurd rfl h, fun _ => ?_⟩
      simp only [held, if_true]; omega

/-- Over `n` iterations `held who` never shrinks, and it stays as it is exactly
when no capture goes to `who`. -/
theorem quiet_iff (who : Bool) (n : Nat) (s t : State) (hi : Inv s) (h : iters n s = some t) :
    held who s ≤ held who t ∧ (noCaptureBy who n s = true ↔ held who t = held who s) := by
  induction n generalizing s with
  | zero =>
    simp only [iters, itersWith, Option.some.injEq] at h
    subst h
    simp [noCaptureBy]
  | succ n ih =>
    simp only [iters, itersWith] at h
    split at h
    · rename_i hr
      obtain ⟨h1, h2⟩ := ih (step s) (inv_stepWith scan s hi hr) h
      obtain ⟨k1, k2⟩ := held_step who s hi hr
      have hle : held who s ≤ held who (step s) := by
        by_cases hc : capturer s = some who
        · exact Nat.le_of_lt (k2 hc)
        · exact Nat.le_of_eq (k1 hc).symm
      refine ⟨Nat.le_trans hle h1, ?_⟩
      simp only [noCaptureBy, hr, if_true, Bool.and_eq_true, bne_iff_ne, ne_eq]
      constructor
      · rintro ⟨hc, hq⟩
        rw [h2.mp hq, k1 hc]
      · intro e
        have hc : capturer s ≠ some who := by
          intro hc
          have := k2 hc
          omega
        exact ⟨hc, h2.mpr (by rw [k1 hc] at hle ⊢; have := k1 hc; omega)⟩
    · cases h

/-- Where the loop of `playGame` stands after 51 plays. -/
theorem state_51 (perm : List Nat) (hp : IsShuffle perm) (t : State)
    (h : iters 51 (init perm) = some t) :
    Inv t ∧ t.aMoves = 26 ∧ t.bMoves = 25 ∧ 0 < t.bDeck.len ∧
      (noCaptureBy true 51 (init perm) = true ↔ t.aDeck.len = 0) := by
  have hi0 := inv_init perm (shuffle_length perm hp)
  have hi := iters_inv 51 _ t hi0 h
  have hm := iters_moves 51 _ t h
  simp only [init] at hm
  have hB := hi.lowB
  have hq := (quiet_iff true 51 _ t hi0 h).2
  have e0 : held true (init perm) = 26 := by simp [held, init, Hand.len]
  have hmoves : t.aMoves = 26 ∧ t.bMoves = 25 := by
    cases ht : t.aTurn with
    | true => have := hi.turnA ht; omega
    | false => have := hi.turnB ht; omega
  obtain ⟨hm1, hm2⟩ := hmoves
  refine ⟨hi, hm1, hm2, by omega, ?_⟩
  rw [hq, e0]
  simp only [held, if_true]
  constructor <;> intro <;> omega

/-- Where the loop of `playGame` stands after 52 plays. -/
theorem state_52 (perm : List Nat) (hp : IsShuffle perm) (t : State)
    (h : iters 52 (init perm) = some t) :
    Inv t ∧ t.aMoves = 26 ∧ t.bMoves = 26 ∧ 0 < t.aDeck.len ∧
      (noCaptureBy false 52 (init perm) = true ↔ t.bDeck.len = 0) := by
  have hi0 := inv_init perm (shuffle_length perm hp)
  have hi := iters_inv 52 _ t hi0 h
  have hm := iters_moves 52 _ t h
  simp only [init] at hm
  have hA := hi.lowA
  have hq := (quiet_iff false 52 _ t hi0 h).2
  have e0 : held false (init perm) = 26 := by simp [held, init, Hand.len]
  have hmoves : t.aMoves = 26 ∧ t.bMoves = 26 ∧ t.aTurn = true := by
    cases ht : t.aTurn with
    | true => have := hi.turnA ht; exact ⟨by omega, by omega, rfl⟩
    | false => have := hi.turnB ht; exfalso; omega
  have hpos : 0 < t.aDeck.len := by
    rcases Nat.eq_zero_or_pos t.aDeck.len with h0 | h0
    · have := hi.emptyA h0; rw [hmoves.2.2] at this; cases this
    · exact h0
  obtain ⟨hm1, hm2, _⟩ := hmoves
  refine ⟨hi, hm1, hm2, hpos, ?_⟩
  rw [hq, e0]
  simp only [held, Bool.false_eq_true, if_false]
  constructor <;> intro <;> omega

theorem playGame_of_iters (perm : List Nat) (n fuel : Nat) (t : State)
    (h : iters n (init perm) = some t) (hr : running t = false) (hn : n ≤ fuel) :
    playGame fuel perm = some (finish t) := by
  simp [playGame, exitState, loop_of_iters n fuel _ t h hr hn]

/-- C5 as amended: for every permutation of 0..51 used as the shuffle, the loop
of `playGame` terminates after at most 52 plays exactly when one player
captures nothing in that time.  It exits after 51 plays, with B the winner, iff
no capture goes to A in the first 51 plays; it exits after 52 plays, with A the
winner, iff a capture goes to A in the first 51 plays and none to B in the first
52; otherwise it is still running after 52 plays.  A returned
`AMoves + BMoves` is at most 52 exactly when the loop has exited by then. -/
theorem C5_within_52_plays_iff_no_capture (perm : List Nat) (hp : IsShuffle perm) :
    (playGame 52 perm = some { Winner := "B", AMoves := 26, BMoves := 25 } ↔
        noCaptureBy true 51 (init perm) = true) ∧
      (playGame 52 perm = some { Winner := "A", AMoves := 26, BMoves := 26 } ↔
        noCaptureBy true 51 (init perm) = false ∧ noCaptureBy false 52 (init perm) = true) ∧
      (playGame 52 perm = none ↔
        noCaptureBy true 51 (init perm) = false ∧ noCaptureBy false 52 (init perm) = false) ∧
      ∀ fuel r, playGame fuel perm = some r →
        (r.AMoves + r.BMoves ≤ 52 ↔ playGame 52 perm = some r) := by
  have hne : ({ Winner := "B", AMoves := 26, BMoves := 25 } : GameResult) ≠
      { Winner := "A", AMoves := 26, BMoves := 26 } := by decide
  have hlast : ∀ fuel r, playGame fuel perm = some r →
      (r.AMoves + r.BMoves ≤ 52 ↔ playGame 52 perm = some r) := by
    intro fuel r h
    constructor
    · intro hle
      obtain ⟨s, n, _, hf, _, hr, _, hit, hm⟩ := exit_facts perm fuel r hp h
      subst hf
      exact playGame_of_iters perm n 52 s hit hr (by rw [← hm]; exact hle)
    · intro h52
      obtain ⟨s, n, _, hf, _, _, hn, _, hm⟩ := exit_facts perm 52 r hp h52
      subst hf
      show s.aMoves + s.bMoves ≤ 52
      omega
  obtain ⟨t, ht⟩ := runs_51 perm hp
  obtain ⟨hi, ha, hb, hbpos, hq⟩ := state_51 perm hp t ht
  rcases Nat.eq_zero_or_pos t.aDeck.len with h0 | h0
  · have hqA : noCaptureBy true 51 (init perm) = true := hq.mpr h0
    have hr : running t = false := by simp [running, h0]
    have hP : playGame 52 perm = some { Winner := "B", AMoves := 26, BMoves := 25 } := by
      rw [playGame_of_iters perm 51 52 t ht hr (by omega)]
      simp [finish, h0, ha, hb]
    refine ⟨?_, ?_, ?_, hlast⟩
    · exact ⟨fun _ => hqA, fun _ => hP⟩
    · rw [hP, hqA]
      exact ⟨fun e => absurd (Option.some.inj e) hne, fun e => by simp at e⟩
    · rw [hP, hqA]
      exact ⟨fun e => (by cases e), fun e => by simp at e⟩
  · have hqA : noCaptureBy true 51 (init perm) = false := by
      cases hc : noCaptureBy true 51 (init perm) with
      | false => rfl
      | true => have := hq.mp hc; omega
    have hr : running t = true := by
      simp only [running, Bool.and_eq_true, decide_eq_true_eq]
      exact ⟨h0, hbpos⟩
    have ht2 := iters_succ 51 _ t ht hr
    obtain ⟨hi2, ha2, hb2, hapos, hq2⟩ := state_52 perm hp (step t) ht2
    rcases Nat.eq_zero_or_pos (step t).bDeck.len with hz | hz
    · have hqB : noCaptureBy false 52 (init perm) = true := hq2.mpr hz
      have hr2 : running (step t) = false := by simp [running, hz]
      have hP : playGame 52 perm = some { Winner := "A", AMoves := 26, BMoves := 26 } := by
        rw [playGame_of_iters perm 52 52 (step t) ht2 hr2 (le_refl _)]
        have hne0 : (step t).aDeck.len ≠ 0 := by omega
        simp [finish, hne0, ha2, hb2]
      refine ⟨?_, ?_, ?_, hlast⟩
      · rw [hP, hqA]
        exact ⟨fun e => absurd (Option.some.inj e).symm hne, fun e => by simp at e⟩
      · exact ⟨fun _ => ⟨hqA, hqB⟩, fun _ => hP⟩
      · rw [hP, hqB]
        exact ⟨fun e => (by cases e), fun e => by simp at e⟩
    · have hqB : noCaptureBy false 52 (init perm) = false := by
        cases hc : noCaptureBy false 52 (init perm) with
        | false => rfl
        | true => have := hq2.mp hc; omega
      have hr2 : running (step t) = true := by
        simp only [running, Bool.and_eq_true, decide_eq_true_eq]
        exact ⟨hapos, hz⟩
      have ht3 := iters_succ 52 _ (step t) ht2 hr2
      have hP : playGame 52 perm = none := by
        simp [playGame, exitState, loop_none_of_iters 52 _ _ ht3]
      refine ⟨?_, ?_, ?_, hlast⟩
      · rw [hP, hqA]
        exact ⟨fun e => (by cases e), fun e => by simp at e⟩
      · rw [hP, hqB]
        exact ⟨fun e => (by cases e), fun e => by simp at e⟩
      · exact ⟨fun _ => ⟨hqA, hqB⟩, fun _ => hP⟩

/-- C5, refuted on a shuffle whose game leaves the cards intact (four of each
rank after every iteration): the loop of `playGame` is still running after 52
plays and exits after 89 plays, with `AMoves = 45` and `BMoves = 44`. -/
theorem C5_shuffle_takes_89_plays :
    IsShuffle bShuffle ∧ playGame 52 bShuffle = none ∧
      playGame 89 bShuffle = some { Winner := "B", AMoves := 45, BMoves := 44 } ∧
      ((List.range 90).all fun n => (iters n (init bShuffle)).map fourOfEach == some true) =
        true ∧
      ¬ ∀ perm, IsShuffle perm →
        ∃ r, playGame 52 perm = some r ∧ r.AMoves + r.BMoves ≤ 52 := by
  have h52 : playGame 52 bShuffle = none := by decide
  refine ⟨by decide, h52, by decide, by decide, fun h => ?_⟩
  obtain ⟨r, hr, _⟩ := h bShuffle (by decide)
  rw [h52] at hr
  cases hr

/-- The amended claim on a shuffle where no capture goes to A, which B wins
after 51 plays, and on a shuffle where both players capture, which takes more
than 52 plays. -/
theorem C5_within_52_plays_iff_no_capture_witness :
    (IsShuffle quickShuffleB ∧ noCaptureBy true 51 (init quickShuffleB) = true ∧
        playGame 52 quickShuffleB = some { Winner := "B", AMoves := 26, BMoves := 25 }) ∧
      (IsShuffle bShuffle ∧ noCaptureBy true 51 (init bShuffle) = false ∧
        noCaptureBy false 52 (init bShuffle) = false ∧ playGame 52 bShuffle = none) :=
  ⟨⟨by decide, by decide,
      (C5_within_52_plays_iff_no_capture quickShuffleB (by decide)).1.mpr (by decide)⟩,
    ⟨by decide, by decide, by decide,
      (C5_within_52_plays_iff_no_capture bShuffle (by decide)).2.2.1.mpr
        ⟨by decide, by decide⟩⟩⟩

/-- With either tie-break `playGame` gives the same result on every deck. -/
theorem playGameLast_eq (fuel : Nat) (perm : List Nat) :
    playGameLast fuel perm = playGame fuel perm := by
  unfold playGameLast playGame exitState
  rw [loopWith_scanLast fuel (init perm) List.nodup_nil]

/-- C7, refuted: no shuffle makes `playGame` with the front-to-back scan return
a result different from the game that captures at the highest matching index. -/
theorem C7_no_shuffle_tells_the_tie_breaks_apart :
    ¬ ∃ fuel perm, IsShuffle perm ∧ playGame fuel perm ≠ playGameLast fuel perm := by
  rintro ⟨fuel, perm, _, h⟩
  exact h (playGameLast_eq fuel perm).symm

/-- C7 as amended: the tie-break of the scan cannot be observed.  For every
shuffle and every number of plays allowed, the game that captures at the highest
matching index returns what `playGame` returns, and is still running when
`playGame` is: the pile never holds a rank twice, so the two scans find the same
index. -/
theorem C7_tie_break_is_unobservable :
    ∀ fuel perm, playGameLast fuel perm = playGame fuel perm :=
  fun fuel perm => playGameLast_eq fuel perm

/-- C9: the winner is fixed by move parity.  For every shuffle on which
`playGame` returns, `BMoves ≤ AMoves ≤ BMoves + 1`, the winner is "B" exactly
when `AMoves = BMoves + 1` and "A" exactly when `AMoves = BMoves`, a hand that
is empty where the loop exits belongs to the player who played last, and
`AMoves + BMoves ≥ 51`. -/
theorem C9_winner_by_move_parity (perm : List Nat) (fuel : Nat) (r : GameResult)
    (hp : IsShuffle perm) (h : playGame fuel perm = some r) :
    r.BMoves ≤ r.AMoves ∧ r.AMoves ≤ r.BMoves + 1 ∧
      (r.Winner = "B" ↔ r.AMoves = r.BMoves + 1) ∧ (r.Winner = "A" ↔ r.AMoves = r.BMoves) ∧
      (∃ s, exitState fuel perm = some s ∧ (s.aDeck.len = 0 → s.aTurn = false) ∧
        (s.bDeck.len = 0 → s.aTurn = true)) ∧
      51 ≤ r.AMoves + r.BMoves := by
  obtain ⟨s, n, hs, hf, hi, hr, _, _, _⟩ := exit_facts perm fuel r hp h
  subst hf
  have hA := hi.lowA
  have hB := hi.lowB
  have hAB : ("A" : String) ≠ "B" := by decide
  rcases exit_empty s hi hr with ⟨ha, _, ht⟩ | ⟨ha, _, ht⟩
  · have e := hi.turnB ht
    have hw : (finish s).Winner = "B" := by simp [finish, ha]
    refine ⟨?_, ?_, ?_, ?_, ⟨s, hs, hi.emptyA, hi.emptyB⟩, ?_⟩
    · show s.bMoves ≤ s.aMoves; omega
    · show s.aMoves ≤ s.bMoves + 1; omega
    · exact ⟨fun _ => e, fun _ => hw⟩
    · constructor
      · intro e2; rw [hw] at e2; exact absurd e2.symm hAB
      · intro e2; have : s.aMoves = s.bMoves := e2; omega
    · show 51 ≤ s.aMoves + s.bMoves; omega
  · have e := hi.turnA ht
    have ha2 : s.aDeck.len ≠ 0 := by omega
    have hw : (finish s).Winner = "A" := by simp [finish, ha2]
    refine ⟨?_, ?_, ?_, ?_, ⟨s, hs, hi.emptyA, hi.emptyB⟩, ?_⟩
    · show s.bMoves ≤ s.aMoves; omega
    · show s.aMoves ≤ s.bMoves + 1; omega
    · constructor
      · intro e2; rw [hw] at e2; exact absurd e2 hAB
      · intro e2; have : s.aMoves = s.bMoves + 1 := e2; omega
    · exact ⟨fun _ => e, fun _ => hw⟩
    · show 51 ≤ s.aMoves + s.bMoves; omega

/-- The parity theorem on a shuffle that B wins with 45 moves against 44. -/
theorem C9_winner_by_move_parity_witness :
    IsShuffle bShuffle ∧
      playGame 89 bShuffle = some { Winner := "B", AMoves := 45, BMoves := 44 } ∧
      (44 ≤ 45 ∧ 45 ≤ 44 + 1 ∧
        (("B" : String) = "B" ↔ 45 = 44 + 1) ∧ (("B" : String) = "A" ↔ 45 = 44) ∧
        (∃ s, exitState 89 bShuffle = some s ∧ (s.aDeck.len = 0 → s.aTurn = false) ∧
          (s.bDeck.len = 0 → s.aTurn = true)) ∧
        51 ≤ 45 + 44) :=
  ⟨by decide, by decide,
    C9_winner_by_move_parity bShuffle 89 { Winner := "B", AMoves := 45, BMoves := 44 }
      (by decide) (by decide)⟩

/-- C10: table-pile distinctness.  For every shuffle, at the start and after
every iteration of the loop of `playGame` the pile holds pairwise distinct
ranks, so its length is at most 13 and a card can match at most one index of
the pile. -/
theorem C10_table_pile_distinct (perm : List Nat) (n : Nat) (s : State) (hp : IsShuffle perm)
    (h : iters n (init perm) = some s) :
    s.table.Nodup ∧ s.table.length ≤ 13 ∧
      ∀ c i j, i < s.table.length → j < s.table.length →
        s.table.getD i 0 = c → s.table.getD j 0 = c → i = j := by
  have hn := iters_nodup n _ s List.nodup_nil h
  have hi := iters_inv n _ s (inv_init perm (shuffle_length perm hp)) h
  refine ⟨hn, ?_, fun c i j h1 h2 e1 e2 => nodup_getD_inj s.table hn i j h1 h2 (e1.trans e2.symm)⟩
  have hsub : s.table.toFinset ⊆ Finset.Icc 1 13 := by
    intro x hx
    have := hi.ranksTable x (List.mem_toFinset.mp hx)
    exact Finset.mem_Icc.mpr this
  have hc := Finset.card_le_card hsub
  rw [List.toFinset_card_of_nodup hn] at hc
  simpa using hc

/-- The distinctness theorem on the identity shuffle, four iterations in, where
the pile is `[2, 1]`. -/
theorem C10_table_pile_distinct_witness :
    IsShuffle idShuffle ∧ iters 4 (init idShuffle) = some idState4 ∧
      (idState4.table.Nodup ∧ idState4.table.length ≤ 13 ∧
        ∀ c i j, i < idState4.table.length → j < idState4.table.length →
          idState4.table.getD i 0 = c → idState4.table.getD j 0 = c → i = j) :=
  ⟨List.Perm.refl _, by decide,
    C10_table_pile_distinct idShuffle 4 idState4 (List.Perm.refl _) (by decide)⟩

/-! ## The simulation driver -/

theorem flatten_length_const {α β : Type} (l : List α) (f : α → List β) (k : Nat)
    (hf : ∀ a, (f a).length = k) : ((l.map f).flatten).length = l.length * k := by
  induction l with
  | nil => simp
  | cons a l ih =>
    simp only [List.map_cons, List.flatten_cons, List.length_append, List.length_cons, hf a, ih]
    rw [Nat.succ_mul]; omega

theorem worker_length (numGames numWorkers : Int) (trial : Nat → GameResult) :
    (worker numGames numWorkers trial).length = (numGames.tdiv numWorkers).toNat := by
  simp [worker]

/-- The workers send `numWorkers * (numGames / numWorkers)` results in all. -/
theorem sent_total (numGames numWorkers : Int) (trials : Nat → Nat → GameResult) :
    ((sent numGames numWorkers trials).flatten).length =
      numWorkers.toNat * (numGames.tdiv numWorkers).toNat := by
  unfold sent
  rw [flatten_length_const _ _ _ (fun i => worker_length numGames numWorkers (trials i))]
  simp

theorem delivered_total (numGames numWorkers : Int) (trials : Nat → Nat → GameResult)
    (deliver : List (List GameResult) → List GameResult) (hd : IsDelivery deliver) :
    (deliver (sent numGames numWorkers trials)).length =
      numWorkers.toNat * (numGames.tdiv numWorkers).toNat := by
  rw [List.Perm.length_eq (hd _), sent_total]

theorem progressLoop_ok (progressStep : Int) (hs : progressStep ≠ 0) (ps : List Int)
    (total : Int) : progressLoop progressStep ps total = .ok (total + ps.sum) := by
  induction ps generalizing total with
  | nil => simp [progressLoop]
  | cons p ps ih =>
    simp only [progressLoop, hs, if_false, ih, List.sum_cons]
    congr 1; omega

theorem progressLoop_zero (p : Int) (ps : List Int) (total : Int) :
    progressLoop 0 (p :: ps) total = .error .divideByZero := by
  simp [progressLoop]

theorem foldl_tally (rs : List GameResult) (t : Totals) :
    (rs.foldl tally t).aWins + (rs.foldl tally t).bWins = t.aWins + t.bWins + rs.length ∧
      (rs.foldl tally t).aMovesList.length = t.aMovesList.length + rs.length ∧
      (rs.foldl tally t).bMovesList.length = t.bMovesList.length + rs.length := by
  induction rs generalizing t with
  | nil => simp
  | cons r rs ih =>
    obtain ⟨h1, h2, h3⟩ := ih (tally t r)
    simp only [List.foldl_cons, List.length_cons]
    refine ⟨?_, ?_, ?_⟩
    · rw [h1]
      simp only [tally]
      split <;> omega
    · rw [h2]; simp only [tally, List.length_append, List.length_singleton]; omega
    · rw [h3]; simp only [tally, List.length_append, List.length_singleton]; omega

theorem aggregate_counts (rs : List GameResult) :
    (aggregate rs).aWins + (aggregate rs).bWins = rs.length ∧
      (aggregate rs).aMovesList.length = rs.length ∧
      (aggregate rs).bMovesList.length = rs.length := by
  have := foldl_tally rs { aWins := 0, bWins := 0, aMovesList := [], bMovesList := [] }
  simpa [aggregate] using this

/-- When `simulateGames` returns, it returns the tally of what was delivered. -/
theorem simulateGames_ok (numGames numWorkers : Int) (trials : Nat → Nat → GameResult)
    (deliver : List (List GameResult) → List GameResult) (t : Totals)
    (h : simulateGames numGames numWorkers trials deliver = .ok t) :
    t = aggregate (deliver (sent numGames numWorkers trials)) := by
  unfold simulateGames at h
  split at h
  · cases h
  · simp only at h
    split at h
    · cases h
    · cases h; rfl

theorem progressStep_pos_iff (numGames : Int) (h0 : 0 ≤ numGames) :
    1 ≤ determineProgressStep numGames ↔ 1000 ≤ numGames := by
  unfold determineProgressStep
  rw [Int.tdiv_eq_ediv h0 (by decide), Int.tdiv_eq_ediv h0 (by decide),
    Int.tdiv_eq_ediv h0 (by decide)]
  split_ifs <;> omega

theorem progressStep_zero (numGames : Int) (h0 : 0 ≤ numGames) (h : numGames < 1000) :
    determineProgressStep numGames = 0 := by
  unfold determineProgressStep
  rw [Int.tdiv_eq_ediv h0 (by decide), Int.tdiv_eq_ediv h0 (by decide),
    Int.tdiv_eq_ediv h0 (by decide)]
  split_ifs <;> omega

/-- C6: aggregate consistency of `simulateGames`.  For `numGames ≥ 0` and
`numWorkers ≥ 1`, with `numWorkers` workers that each send `numGames/numWorkers`
results, delivered in any order: when `simulateGames` returns,
`aWins + bWins = numWorkers * (numGames / numWorkers)`,
`len(aMovesList) = len(bMovesList) = aWins + bWins`, and the
`numGames mod numWorkers` remaining trials are not among them. -/
theorem C6_aggregate_consistency (numGames numWorkers : Int)
    (trials : Nat → Nat → GameResult) (deliver : List (List GameResult) → List GameResult)
    (t : Totals) (h0 : 0 ≤ numGames) (h1 : 1 ≤ numWorkers) (hd : IsDelivery deliver)
    (h : simulateGames numGames numWorkers trials deliver = .ok t) :
    (((sent numGames numWorkers trials).length : Int) = numWorkers ∧
        ∀ o ∈ sent numGames numWorkers trials, (o.length : Int) = numGames.tdiv numWorkers) ∧
      ((t.aWins + t.bWins : Nat) : Int) = numWorkers * numGames.tdiv numWorkers ∧
      t.aMovesList.length = t.bMovesList.length ∧ t.bMovesList.length = t.aWins + t.bWins ∧
      ((t.aWins + t.bWins : Nat) : Int) = numGames - numGames.tmod numWorkers := by
  have hw : (0 : Int) ≤ numWorkers := by omega
  have hq : 0 ≤ numGames.tdiv numWorkers := by
    rw [Int.tdiv_eq_ediv h0 hw]; exact Int.ediv_nonneg h0 hw
  have hlen := delivered_total numGames numWorkers trials deliver hd
  obtain ⟨c1, c2, c3⟩ := aggregate_counts (deliver (sent numGames numWorkers trials))
  rw [← simulateGames_ok numGames numWorkers trials deliver t h] at c1 c2 c3
  have hsum : ((t.aWins + t.bWins : Nat) : Int) = numWorkers * numGames.tdiv numWorkers := by
    rw [c1, hlen, Nat.cast_mul, Int.toNat_of_nonneg hw, Int.toNat_of_nonneg hq]
  refine ⟨⟨?_, ?_⟩, hsum, by omega, by omega, ?_⟩
  · simp only [sent, List.length_map, List.length_range]
    exact Int.toNat_of_nonneg hw
  · intro o ho
    simp only [sent, List.mem_map] at ho
    obtain ⟨i, _, rfl⟩ := ho
    rw [worker_length]
    exact Int.toNat_of_nonneg hq
  · rw [hsum, Int.tdiv_eq_ediv h0 hw, Int.tmod_eq_emod h0 hw]
    have := Int.emod_add_ediv numGames numWorkers
    omega

/-- C8: the precondition of the progress step.  For every 64-bit
`numGames ≥ 0`, `determineProgressStep(numGames) ≥ 1` iff `numGames ≥ 1000`; for
`numGames < 1000` it returns 0, the first progress unit then makes
`totalProgress % progressStep` divide by zero, and `simulateGames` faults
whenever `numGames/numWorkers ≥ 1`. -/
theorem C8_progress_step_precondition (numGames : Int) (h0 : 0 ≤ numGames)
    (h63 : numGames < 2 ^ 63) :
    (1 ≤ determineProgressStep numGames ↔ 1000 ≤ numGames) ∧
      (numGames < 1000 → determineProgressStep numGames = 0 ∧
        (∀ p ps total, progressLoop (determineProgressStep numGames) (p :: ps) total =
          .error .divideByZero) ∧
        ∀ numWorkers trials deliver, IsDelivery deliver → 1 ≤ numGames.tdiv numWorkers →
          simulateGames numGames numWorkers trials deliver = .error .divideByZero) := by
  refine ⟨progressStep_pos_iff numGames h0, fun hlt => ?_⟩
  have hz := progressStep_zero numGames h0 hlt
  refine ⟨hz, fun p ps total => by rw [hz]; exact progressLoop_zero p ps total, ?_⟩
  intro numWorkers trials deliver hd hq
  have hw : 1 ≤ numWorkers := by
    by_contra hb
    have := Int.tdiv_nonpos h0 (show numWorkers ≤ 0 by omega)
    omega
  have hlen := delivered_total numGames numWorkers trials deliver hd
  have hpos : 0 < (deliver (sent numGames numWorkers trials)).length := by
    rw [hlen]
    exact Nat.mul_pos (by omega) (by omega)
  unfold simulateGames
  rw [if_neg (by omega), hz]
  cases hc : deliver (sent numGames numWorkers trials) with
  | nil => rw [hc] at hpos; simp at hpos
  | cons r rs => simp [progressLoop_zero]

theorem lastFirst_delivery : IsDelivery lastFirst :=
  fun outs => List.reverse_perm outs.flatten

set_option maxRecDepth 100000 in
/-- A run of `simulateGames` with 1000 games asked for and 501 workers. -/
theorem sampleRun : simulateGames 1000 501 sampleTrials lastFirst = .ok sampleTotals := by
  rfl

/-- The consistency theorem with 1000 games asked for and 501 workers: 501
trials are run and 499 are dropped. -/
theorem C6_aggregate_consistency_witness :
    (0 : Int) ≤ 1000 ∧ (1 : Int) ≤ 501 ∧ IsDelivery lastFirst ∧
      simulateGames 1000 501 sampleTrials lastFirst = .ok sampleTotals ∧
      ((((sent 1000 501 sampleTrials).length : Int) = 501 ∧
          ∀ o ∈ sent 1000 501 sampleTrials, (o.length : Int) = Int.tdiv 1000 501) ∧
        ((sampleTotals.aWins + sampleTotals.bWins : Nat) : Int) = 501 * Int.tdiv 1000 501 ∧
        sampleTotals.aMovesList.length = sampleTotals.bMovesList.length ∧
        sampleTotals.bMovesList.length = sampleTotals.aWins + sampleTotals.bWins ∧
        ((sampleTotals.aWins + sampleTotals.bWins : Nat) : Int) = 1000 - Int.tmod 1000 501) :=
  ⟨by decide, by decide, lastFirst_delivery, sampleRun,
    C6_aggregate_consistency 1000 501 sampleTrials lastFirst sampleTotals (by decide) (by decide)
      lastFirst_delivery sampleRun⟩

/-- The progress-step theorem at the boundary values 999 and 1000. -/
theorem C8_progress_step_precondition_witness :
    (0 : Int) ≤ 999 ∧ (999 : Int) < 2 ^ 63 ∧ (0 : Int) ≤ 1000 ∧ (1000 : Int) < 2 ^ 63 ∧
      determineProgressStep 999 = 0 ∧ determineProgressStep 1000 = 1 ∧
      simulateGames 999 1 sampleTrials lastFirst = .error .divideByZero ∧
      simulateGames 999 999 sampleTrials lastFirst = .error .divideByZero :=
  have h999 := C8_progress_step_precondition 999 (by decide) (by decide)
  have h1000 := C8_progress_step_precondition 1000 (by decide) (by decide)
  ⟨by decide, by decide, by decide, by decide, (h999.2 (by decide)).1,
    le_antisymm (by decide) (h1000.1.mpr (by decide)),
    (h999.2 (by decide)).2.2 1 sampleTrials lastFirst lastFirst_delivery (by decide),
    (h999.2 (by decide)).2.2 999 sampleTrials lastFirst lastFirst_delivery (by decide)⟩

end Tractor
